import Mathlib

/-!
Verification of the Bani-AI text-retrieval and alignment engine.

The definitions below are a shallow embedding of the Python sources:
  * `src/backend/shabad_confirmation.py` (ShabadTracker state machine),
  * `src/backend/main.py` (`fuzzy_search_sggs`),
  * `src/matcher.py` (`fuzzy_match_local_sggs`),
  * `src/Tools/FuzzySearchComparison/backend/fuzzy_search.py`
    (`calculate_weighted_score`, `calculate_individual_scores`),
  * `src/backend/build_sggs_index.py` (`build_inverted_index`),
  * `src/Tools/SGGSUtilities/create_inverted_index.py` (`create_inverted_index`),
and, where the enhanced match engine is absent from the checkout (its test
`src/backend/test_enhanced_fuzzy.py` imports symbols such as
`get_candidate_lines_from_index` and `FUZZY_WORD_THRESHOLD` that no file under
`src/` defines), a model built from the specification's words.

Python floats are modelled as rationals (`ℚ`); Python `None` and falsy dict
results as `Option`; the external rapidfuzz similarity primitives as function
parameters (the spec treats them as consumed, not reimplemented).  Stateful
collaborator functions (the tracker's global/local search callbacks) are
modelled as call-indexed oracles `Nat → ... → Option SearchResult`, the index
counting calls made so far, so that two successive calls may disagree exactly
as two calls of an arbitrary stateful Python callable may.
-/

namespace BaniAI

/-- Python `str.split()` with no argument, on a list of characters: split
on whitespace runs, discarding empty pieces.  `cur` holds the characters of
the word currently being read, in reverse. -/
def wordsAux : List Char → List Char → List String
  | [], cur => if cur = [] then [] else [String.mk cur.reverse]
  | c :: cs, cur =>
      if c.isWhitespace then
        if cur = [] then wordsAux cs []
        else String.mk cur.reverse :: wordsAux cs []
      else wordsAux cs (c :: cur)

/-- Python `str.split()` with no argument: split on whitespace runs,
discarding empty pieces.  (Implemented character by character so that it
evaluates inside the kernel; whitespace is the ASCII whitespace occurring
in the corpus.) -/
def pySplit (s : String) : List String := wordsAux s.toList []

/-- Python `str.strip()` with no argument: drop leading and trailing
whitespace. -/
def pyStrip (s : String) : String :=
  String.mk
    (((s.toList.dropWhile Char.isWhitespace).reverse.dropWhile
        Char.isWhitespace).reverse)

/-- Python `sep.join(...)`. -/
def pyJoin (sep : String) : List String → String
  | [] => ""
  | [x] => x
  | x :: y :: xs => x ++ sep ++ pyJoin sep (y :: xs)

/-- Result dictionary returned by a search collaborator of the tracker:
`{"shabad_id": ..., "line": ..., "score": ...}`. -/
structure SearchResult where
  shabad_id : String
  line : String
  score : ℚ
deriving DecidableEq

/-- Global search collaborator: call index and query to optional result.
A `none` models a Python falsy result (`if not result`). -/
def GlobalSearch : Type := Nat → String → Option SearchResult

/-- Local search collaborator: call index, the tracker's
`current_shabad_id` (possibly `None`) and the query window. -/
def LocalSearch : Type := Nat → Option String → String → Option SearchResult

/-- State of `ShabadTracker` (`src/backend/shabad_confirmation.py`,
`__init__`): anchor id, confirmation flag, failure counter, word buffer. -/
structure ShabadTracker where
  current_shabad_id : Option String
  confirmed : Bool
  failure_counter : Nat
  word_buffer : List String
deriving DecidableEq

namespace ShabadTracker

/-- `self.MAX_FAILURES = 3` -/
def MAX_FAILURES : Nat := 3

/-- `self.INTERIM_WORD_CHECK = 8` -/
def INTERIM_WORD_CHECK : Nat := 8

/-- `self.LOCAL_THRESHOLD = 60` -/
def LOCAL_THRESHOLD : ℚ := 60

/-- `self.GLOBAL_THRESHOLD = 65` -/
def GLOBAL_THRESHOLD : ℚ := 65

/-- Fresh tracker built by `__init__`. -/
def init : ShabadTracker := ⟨none, false, 0, []⟩

/-- Python `str.split()`, as used on a transcription chunk. -/
def splitWords (s : String) : List String := pySplit s

/-- Per-chunk status dictionaries returned by the tracker, keyed by their
`"status"` field. -/
inductive ChunkStatus where
  | no_match : ChunkStatus
  | pending_confirmation : ChunkStatus
  | confirmed (shabad_id : String) (line : String) (score : ℚ) : ChunkStatus
  | tracking (shabad_id : Option String) : ChunkStatus
  | drift_detected : ChunkStatus
deriving DecidableEq

/-- `initial_confirm`: first global search; on a falsy result report
`no_match`; otherwise run a second global search and require an agreeing
`shabad_id` to confirm, else `pending_confirmation`.  Returns the updated
tracker, the status, and the advanced global-call index. -/
def initial_confirm (g : GlobalSearch) (gk : Nat) (t : ShabadTracker)
    (chunk : String) : ShabadTracker × ChunkStatus × Nat :=
  match g gk chunk with
  | none => (t, ChunkStatus.no_match, gk + 1)
  | some r =>
      match g (gk + 1) chunk with
      | some r2 =>
          if r2.shabad_id = r.shabad_id then
            ({ t with current_shabad_id := some r.shabad_id,
                      confirmed := true,
                      failure_counter := 0 },
             ChunkStatus.confirmed r.shabad_id r.line r.score, gk + 2)
          else (t, ChunkStatus.pending_confirmation, gk + 2)
      | none => (t, ChunkStatus.pending_confirmation, gk + 2)

/-- `validate_progression`: with fewer than `INTERIM_WORD_CHECK` buffered
words, trivially valid; otherwise query the local and global collaborators
on the window of the last `INTERIM_WORD_CHECK` words and apply the three
cases of the Python method in order. -/
def validate_progression (g : GlobalSearch) (l : LocalSearch)
    (gk lk : Nat) (t : ShabadTracker) : Bool :=
  if t.word_buffer.length < INTERIM_WORD_CHECK then true
  else
    let window := pyJoin " "
      (t.word_buffer.drop (t.word_buffer.length - INTERIM_WORD_CHECK))
    let local_result := l lk t.current_shabad_id window
    let global_result := g gk window
    let local_score : ℚ := (local_result.map SearchResult.score).getD 0
    let global_id : Option String := global_result.map SearchResult.shabad_id
    let global_score : ℚ := (global_result.map SearchResult.score).getD 0
    if local_result.isSome ∧ global_result.isSome ∧
        global_id = t.current_shabad_id ∧ LOCAL_THRESHOLD ≤ local_score then
      true
    else if LOCAL_THRESHOLD ≤ local_score then true
    else if GLOBAL_THRESHOLD ≤ global_score ∧ global_id ≠ t.current_shabad_id
      then false
    else false

/-- Number of collaborator calls (one local, one global) that
`validate_progression` performs on a given state. -/
def validateCalls (t : ShabadTracker) : Nat :=
  if t.word_buffer.length < INTERIM_WORD_CHECK then 0 else 1

/-- `reset`: clear anchor, confirmation flag, failure counter and buffer. -/
def reset (t : ShabadTracker) : ShabadTracker :=
  { t with current_shabad_id := none, confirmed := false,
           failure_counter := 0, word_buffer := [] }

/-- `detect_drift`: update the failure counter from the validation verdict,
and on reaching `MAX_FAILURES` reset and report drift. -/
def detect_drift (g : GlobalSearch) (l : LocalSearch) (gk lk : Nat)
    (t : ShabadTracker) : ShabadTracker × Bool :=
  let valid := validate_progression g l gk lk t
  let t1 :=
    if valid then { t with failure_counter := 0 }
    else { t with failure_counter := t.failure_counter + 1 }
  if MAX_FAILURES ≤ t1.failure_counter then (reset t1, true) else (t1, false)

/-- Outcome of one `process_chunk` call: new tracker state, status, and the
advanced global/local call indices. -/
structure StepResult where
  tracker : ShabadTracker
  status : ChunkStatus
  gcalls : Nat
  lcalls : Nat
deriving DecidableEq

/-- `process_chunk`: extend the word buffer with the chunk's words; if not
yet confirmed run `initial_confirm`, otherwise run `detect_drift` and report
`drift_detected` or `tracking`. -/
def process_chunk (g : GlobalSearch) (l : LocalSearch) (gk lk : Nat)
    (t : ShabadTracker) (chunk : String) : StepResult :=
  let t0 := { t with word_buffer := t.word_buffer ++ splitWords chunk }
  if t0.confirmed = false then
    let r := initial_confirm g gk t0 chunk
    ⟨r.1, r.2.1, r.2.2, lk⟩
  else
    let d := detect_drift g l gk lk t0
    if d.2 then
      ⟨d.1, ChunkStatus.drift_detected,
        gk + validateCalls t0, lk + validateCalls t0⟩
    else
      ⟨d.1, ChunkStatus.tracking d.1.current_shabad_id,
        gk + validateCalls t0, lk + validateCalls t0⟩

/-- Process a whole list of chunks in order, threading tracker state and
call indices, starting from a given configuration. -/
def runChunks (g : GlobalSearch) (l : LocalSearch) :
    List String → ShabadTracker × Nat × Nat → ShabadTracker × Nat × Nat
  | [], s => s
  | c :: cs, (t, gk, lk) =>
      let r := process_chunk g l gk lk t c
      runChunks g l cs (r.tracker, r.gcalls, r.lcalls)

end ShabadTracker

/-! ### `fuzzy_search_sggs` of `src/backend/main.py` -/

namespace Backend

/-- The external `fuzz.ratio` similarity primitive, consumed by the engine
and modelled as a parameter (query and line to a score). -/
def Ratio : Type := String → String → ℚ

/-- The scan loop of `fuzzy_search_sggs`: walk every line, keeping the best
line and best score, replacing them only on a strictly greater score
(`if score > best_score`).  Also returns how many lines were scored. -/
def fuzzyScan (ratio : Ratio) (q : String) :
    List String → Option String → ℚ → Option String × ℚ × Nat
  | [], bl, bs => (bl, bs, 0)
  | line :: rest, bl, bs =>
      let score := ratio q line
      let r :=
        if bs < score then fuzzyScan ratio q rest (some line) score
        else fuzzyScan ratio q rest bl bs
      (r.1, r.2.1, r.2.2 + 1)

/-- Python truthiness of `best_line` (an optional string): `None` and the
empty string are falsy. -/
def truthyLine : Option String → Bool
  | none => false
  | some s => decide (s ≠ "")

/-- `fuzzy_search_sggs(query, threshold)`: immediately return `[]` when the
corpus is not loaded or the query strips to empty; otherwise scan all lines
(best score initialised to `-1`, best line to `None`) and return the single
best `(line, score)` pair — when the best score clears the threshold, and
otherwise still, as long as `best_line` is truthy. -/
def fuzzy_search_sggs (ratio : Ratio) (SGGS_LOADED : Bool)
    (SGGS_LINES : List String) (query : String) (threshold : ℚ) :
    List (Option String × ℚ) :=
  if SGGS_LOADED = false ∨ pyStrip query = "" then []
  else
    let b := fuzzyScan ratio query SGGS_LINES none (-1)
    if threshold ≤ b.2.1 then [(b.1, b.2.1)]
    else if truthyLine b.1 then [(b.1, b.2.1)] else []

/-- How many corpus lines `fuzzy_search_sggs` scores on a given input:
none when it returns early, every loaded line otherwise (read off the
instrumented scan loop). -/
def fuzzy_search_scored (ratio : Ratio) (SGGS_LOADED : Bool)
    (SGGS_LINES : List String) (query : String) : Nat :=
  if SGGS_LOADED = false ∨ pyStrip query = "" then 0
  else (fuzzyScan ratio query SGGS_LINES none (-1)).2.2

end Backend

/-! ### `fuzzy_match_local_sggs` of `src/matcher.py` -/

/-- Insert a scored item into a list sorted by strictly descending score
(stable for ties). -/
def insertDesc {α : Type} (x : α × ℚ) : List (α × ℚ) → List (α × ℚ)
  | [] => [x]
  | y :: ys => if y.2 < x.2 then x :: y :: ys else y :: insertDesc x ys

/-- Sort scored items by descending score (insertion sort). -/
def sortDesc {α : Type} (l : List (α × ℚ)) : List (α × ℚ) :=
  l.foldr insertDesc []

namespace Matcher

/-- `process.extract(query, choices, scorer=..., limit=top_n)`: score every
entry's line with the scorer and return the `limit` best entries with their
scores, best first.  Entries are kept abstract (`α` with a `lineOf`
projection models the Python dicts carrying a `"line"` key). -/
def extract {α : Type} (scorer : String → String → ℚ) (query : String)
    (lineOf : α → String) (data : List α) (limit : Nat) : List (α × ℚ) :=
  (sortDesc (data.map (fun e => (e, scorer query (lineOf e))))).take limit

/-- `fuzzy_match_local_sggs(query, sggs_data, threshold, top_n)`: walk the
top `top_n` extracted results in order and return the first entry whose
score clears the threshold; `None` when none does. -/
def fuzzy_match_local_sggs {α : Type} (scorer : String → String → ℚ)
    (query : String) (data : List α) (lineOf : α → String)
    (threshold : ℚ) (top_n : Nat) : Option α :=
  ((extract scorer query lineOf data top_n).find?
      (fun r => threshold ≤ r.2)).map Prod.fst

end Matcher

/-! ### `FuzzySearchComparator` scoring of
`src/Tools/FuzzySearchComparison/backend/fuzzy_search.py` -/

namespace Tools

/-- The five rapidfuzz primitives consumed by
`calculate_individual_scores`, modelled as parameters. -/
structure SimPrimitives where
  ratio : String → String → ℚ
  partial_ratio : String → String → ℚ
  token_sort_ratio : String → String → ℚ
  token_set_ratio : String → String → ℚ
  wratio : String → String → ℚ

/-- `calculate_individual_scores(query, target)`: normalize both strings
(`normalize_text`, kept as a parameter since it wraps `unicodedata`) and
return the dictionary of the five primitive scores, modelled as a partial
map from method name to score. -/
def calculate_individual_scores (P : SimPrimitives)
    (normalize_text : String → String) (query target : String) :
    String → Option ℚ :=
  let q := normalize_text query
  let t := normalize_text target
  fun m =>
    if m = "ratio" then some (P.ratio q t)
    else if m = "partial_ratio" then some (P.partial_ratio q t)
    else if m = "token_sort_ratio" then some (P.token_sort_ratio q t)
    else if m = "token_set_ratio" then some (P.token_set_ratio q t)
    else if m = "wratio" then some (P.wratio q t)
    else none

/-- `calculate_weighted_score(scores, weights)`: `0` when the total weight
is `0`; otherwise the sum of `scores[method] * weight` over the weight
entries whose method is present in `scores`, divided by the total weight. -/
def calculate_weighted_score (scores : String → Option ℚ)
    (weights : List (String × ℚ)) : ℚ :=
  let total_weight := (weights.map Prod.snd).sum
  if total_weight = 0 then 0
  else
    (weights.filterMap (fun mw => (scores mw.1).map (fun s => s * mw.2))).sum
      / total_weight

end Tools

/-! ### Inverted-index builders -/

namespace BuildIndex

/-- `clean_line` of `src/backend/build_sggs_index.py`: remove the `॥`
marker (a single character, so `text.replace("॥", "")` deletes each of its
occurrences), delete every character that is neither a word character nor
whitespace (`re.sub(r"[^\w\s]", "", ...)`; the Unicode word-character class
is abstracted as the `wordChar` parameter), and strip. -/
def clean_line (wordChar : Char → Bool) (text : String) : String :=
  let t1 := text.toList.filter (fun c => c ≠ '॥')
  let t2 := String.mk (t1.filter (fun c => wordChar c || c.isWhitespace))
  pyStrip t2

/-- Recursion of `build_inverted_index` over the remaining lines: `n` is
the current 0-based `enumerate` counter; the inverted index maps a token to
its posting set and the line map records every line (stripped) under its
line number. -/
def buildAux (wordChar : Char → Bool) :
    List String → Nat → (String → Finset Nat) → (Nat → Option String) →
      (String → Finset Nat) × (Nat → Option String)
  | [], _, idx, lm => (idx, lm)
  | line :: rest, n, idx, lm =>
      let clean := clean_line wordChar line
      let lm' := fun k => if k = n then some (pyStrip line) else lm k
      let tokens := pySplit clean
      let idx' := tokens.foldl
        (fun acc tok => fun s => if s = tok then insert n (acc s) else acc s)
        idx
      buildAux wordChar rest (n + 1) idx' lm'

/-- `build_inverted_index(filepath)` of `src/backend/build_sggs_index.py`,
over the file's list of lines: `for line_num, line in enumerate(file)`
starts the line numbering at 0. -/
def build_inverted_index (wordChar : Char → Bool) (file : List String) :
    (String → Finset Nat) × (Nat → Option String) :=
  buildAux wordChar file 0 (fun _ => ∅) (fun _ => none)

end BuildIndex

namespace CreateIndex

/-- The `ignore_chars` set of
`src/Tools/SGGSUtilities/create_inverted_index.py`. -/
def ignore_chars : List String :=
  ["॥", "ਰਹਾਉ", "੧", "੨", "੩", "੪", "੫", "੬", "੭", "੮", "੯", "੦", "ੴ"]

/-- Recursion of `create_inverted_index` over the remaining lines: `n` is
the current `enumerate(file, 1)` counter (1-based, advancing past skipped
blank lines as well); tokens in `ignore_chars` and empty tokens are
skipped. -/
def createAux : List String → Nat → (String → Finset Nat) →
    (String → Finset Nat)
  | [], _, idx => idx
  | line :: rest, n, idx =>
      let stripped := pyStrip line
      if stripped = "" then createAux rest (n + 1) idx
      else
        let tokens := pySplit stripped
        let idx' := tokens.foldl
          (fun acc tok =>
            let cleaned := pyStrip tok
            if ignore_chars.contains cleaned then acc
            else if cleaned = "" then acc
            else fun s => if s = cleaned then insert n (acc s) else acc s)
          idx
        createAux rest (n + 1) idx'

/-- `create_inverted_index(file_path)` of
`src/Tools/SGGSUtilities/create_inverted_index.py`, over the file's list of
lines; line numbering starts at 1.  (The function returns only the index;
this builder produces no line map.) -/
def create_inverted_index (file : List String) : String → Finset Nat :=
  createAux file 1 (fun _ => ∅)

end CreateIndex

/-! ### The enhanced match engine, modelled from the spec

`src/backend/test_enhanced_fuzzy.py` imports `get_candidate_lines_from_index`,
`get_fuzzy_word_matches`, `FUZZY_WORD_THRESHOLD`, `EXACT_WORD_INTERSECTION_MIN`
and `FUZZY_WORD_MAX_MATCHES` from `main`, none of which the `main.py` in the
checkout defines: the enhanced engine the spec's §4.3 describes is missing
from `src/`, only its test is present.  The definitions in this namespace are
therefore modelled from the spec. -/

namespace SpecEngine

/-- Modelled from the spec: the external Similarity Scorer consumed by the
missing enhanced match engine — "three pure functions over two normalized
strings, each returning [0,100] — full-ratio, partial-ratio,
token-set-ratio". -/
structure SimScorer where
  ratio : String → String → ℚ
  partial_ratio : String → String → ℚ
  token_set_ratio : String → String → ℚ

/-- Scorer contract: every primitive returns a value in [0,100]. -/
def InRange (S : SimScorer) : Prop :=
  ∀ x y,
    (0 ≤ S.ratio x y ∧ S.ratio x y ≤ 100) ∧
    (0 ≤ S.partial_ratio x y ∧ S.partial_ratio x y ≤ 100) ∧
    (0 ≤ S.token_set_ratio x y ∧ S.token_set_ratio x y ≤ 100)

/-- Scorer contract: each primitive scores a string against itself at 100
(exact match). -/
def Reflexive100 (S : SimScorer) : Prop :=
  ∀ x, S.ratio x x = 100 ∧ S.partial_ratio x x = 100 ∧
    S.token_set_ratio x x = 100

/-- Scorer contract: ratio and token-set ratio are symmetric. -/
def SymmetricScorer (S : SimScorer) : Prop :=
  ∀ x y, S.ratio x y = S.ratio y x ∧
    S.token_set_ratio x y = S.token_set_ratio y x

/-- Modelled from the spec: weighted line score
`0.3×ratio + 0.4×partial-ratio + 0.3×token-set-ratio`. -/
def lineScore (S : SimScorer) (q t : String) : ℚ :=
  (3 * S.ratio q t + 4 * S.partial_ratio q t + 3 * S.token_set_ratio q t) / 10

/-- Modelled from the spec: the near-exact early-exit bound ("early-exit
the moment any candidate reaches ≥95"). -/
def EARLY_EXIT : ℚ := 95

/-- Modelled from the spec: the lower "decent" acceptance floor
(default 55). -/
def DECENT_FLOOR : ℚ := 55

/-- Replace the running best `(id, text, score)` only on a strictly greater
score (earliest-candidate tie-break). -/
def better (best : Option (Nat × String × ℚ)) (c : Nat × String × ℚ) :
    Option (Nat × String × ℚ) :=
  match best with
  | none => some c
  | some b => if b.2.2 < c.2.2 then some c else some b

/-- Modelled from the spec: score the candidates in iteration order,
stopping the moment any candidate reaches the early-exit bound.  Returns
the running best, the list of `(id, score)` pairs actually scored, and how
many candidates were examined. -/
def scanAux (S : SimScorer) (q : String) :
    List (Nat × String) → Option (Nat × String × ℚ) →
      Option (Nat × String × ℚ) × List (Nat × ℚ) × Nat
  | [], best => (best, [], 0)
  | (i, t) :: rest, best =>
      let sc := lineScore S q t
      let best' := better best (i, t, sc)
      if EARLY_EXIT ≤ sc then (best', [(i, sc)], 1)
      else
        let r := scanAux S q rest best'
        (r.1, (i, sc) :: r.2.1, r.2.2 + 1)

/-- Modelled from the spec: the up-to-6 windows generated around an anchor
line `i` in a corpus of `n` lines — self; self+next; prev+self;
prev+self+next; self+next+next; prev+prev+self — restricted to windows that
lie in range, without duplicates. -/
def windowsFor (n i : Nat) : List (Nat × Nat) :=
  let cands :=
    [(i, i), (i, i + 1)] ++
    (if 1 ≤ i then [(i - 1, i), (i - 1, i + 1)] else []) ++
    [(i, i + 2)] ++
    (if 2 ≤ i then [(i - 2, i)] else [])
  (cands.filter (fun w => w.2 < n)).dedup

/-- Modelled from the spec: a span's concatenated text, lines `w.1` through
`w.2` of the corpus. -/
def spanText (corpus : List String) (w : Nat × Nat) : String :=
  pyJoin " " ((corpus.drop w.1).take (w.2 - w.1 + 1))

/-- Modelled from the spec: a span is scored on its concatenated text with
the same weighted formula. -/
def spanScore (S : SimScorer) (q : String) (corpus : List String)
    (w : Nat × Nat) : ℚ :=
  lineScore S q (spanText corpus w)

/-- Modelled from the spec: all `(anchor, window)` span candidates of the
given anchors, keeping only the first occurrence of each `(start, end)`
pair ("skipping ... duplicate (start,end) pairs already scored"). -/
def spanCandidatesAux (n : Nat) :
    List (Nat × (Nat × Nat)) → List (Nat × Nat) → List (Nat × (Nat × Nat))
  | [], _ => []
  | aw :: rest, seen =>
      if aw.2 ∈ seen then spanCandidatesAux n rest seen
      else aw :: spanCandidatesAux n rest (aw.2 :: seen)

/-- Modelled from the spec: span candidates of a list of anchors. -/
def spanCandidates (n : Nat) (anchors : List Nat) :
    List (Nat × (Nat × Nat)) :=
  spanCandidatesAux n
    ((anchors.map (fun a => (windowsFor n a).map (fun w => (a, w)))).flatten) []

/-- Modelled from the spec: the highest-scoring span candidate (with its
anchor and score); `none` on an empty candidate list. -/
def bestSpan (S : SimScorer) (q : String) (corpus : List String) :
    List (Nat × (Nat × Nat)) → Option ((Nat × (Nat × Nat)) × ℚ)
  | [] => none
  | aw :: rest =>
      let sc := spanScore S q corpus aw.2
      match bestSpan S q corpus rest with
      | none => some (aw, sc)
      | some r => if r.2 < sc then some (aw, sc) else some r

/-- Result of the spec's `search`: `{text, identifier, score}`. -/
structure MatchResult where
  text : String
  identifier : Nat
  score : ℚ
deriving DecidableEq

/-- Modelled from the spec: acceptance and span extension, applied to the
scan's best candidate and the list of scored `(id, score)` pairs.  A best
score below both the threshold and the decent floor is a legitimate
no-match; otherwise up to the 3 best-scoring anchors generate spans, and
the single highest-scoring span replaces the anchor-only result exactly
when its score is strictly higher. -/
def finalize (S : SimScorer) (q : String) (threshold : ℚ)
    (corpus : List String) (scored : List (Nat × ℚ)) :
    Option (Nat × String × ℚ) → Option MatchResult
  | none => none
  | some (i, t, sc) =>
      if sc < threshold ∧ sc < DECENT_FLOOR then none
      else
        let anchors := ((sortDesc scored).take 3).map Prod.fst
        match bestSpan S q corpus (spanCandidates corpus.length anchors) with
        | none => some ⟨t, i, sc⟩
        | some (aw, ssc) =>
            if sc < ssc then some ⟨spanText corpus aw.2, aw.1, ssc⟩
            else some ⟨t, i, sc⟩

/-- Modelled from the spec: `search(query, threshold)` of the missing
enhanced match engine, on the full-scan pathway (every corpus line is a
candidate, in corpus order).  Empty/whitespace query reports no match
immediately; candidates are scored with the weighted formula, early-exiting
at ≥95; the scan's best then goes through acceptance and span extension. -/
def search (S : SimScorer) (q : String) (threshold : ℚ)
    (corpus : List String) : Option MatchResult :=
  if pyStrip q = "" then none
  else
    let scan := scanAux S q corpus.enum none
    finalize S q threshold corpus scan.2.1 scan.1

end SpecEngine

/-! ### Invariants and concrete instances -/

/-- The implicit tracker invariant: the confirmation flag is set exactly
when an anchor id is present. -/
def ConfirmedIffAnchored (t : ShabadTracker) : Prop :=
  t.confirmed = true ↔ t.current_shabad_id ≠ none

/-- A global-search collaborator that never matches. -/
def gNone : GlobalSearch := fun _ _ => none

/-- A local-search collaborator that never matches. -/
def lNone : LocalSearch := fun _ _ _ => none

/-- A global-search collaborator that always reports section `"5"` with
score 80. -/
def gFive : GlobalSearch := fun _ _ => some ⟨"5", "line5", 80⟩

/-- A similarity scorer scoring 100 on equal strings and 95 otherwise:
within [0,100], reflexive at 100, symmetric. -/
def nearScorer : SpecEngine.SimScorer :=
  ⟨fun x y => if x = y then 100 else 95,
   fun x y => if x = y then 100 else 95,
   fun x y => if x = y then 100 else 95⟩

/-- The constantly-zero similarity scorer. -/
def zeroScorer : SpecEngine.SimScorer :=
  ⟨fun _ _ => 0, fun _ _ => 0, fun _ _ => 0⟩

end BaniAI

/-! ## Theorems -/

namespace BaniAI

open ShabadTracker

section TrackerClaims

/-- C2: an `Unconfirmed` tracker processing a chunk debounces via two
global searches: if the first call misses, the output is `no_match` (one
call made); if both calls return results agreeing on the section id, the
tracker becomes `Confirmed` with that anchor and failure counter 0 and the
output is `confirmed`; otherwise (second call missing or disagreeing) the
tracker stays `Unconfirmed` and the output is `pending_confirmation` (two
calls made).  In every case the chunk's words are appended to the buffer. -/
theorem C2_unconfirmed_two_global_searches (g : GlobalSearch)
    (l : LocalSearch) (gk lk : Nat) (t : ShabadTracker) (chunk : String)
    (hconf : t.confirmed = false) :
    (g gk chunk = none →
      process_chunk g l gk lk t chunk =
        ⟨⟨t.current_shabad_id, false, t.failure_counter,
            t.word_buffer ++ splitWords chunk⟩,
          ChunkStatus.no_match, gk + 1, lk⟩) ∧
    (∀ r r2, g gk chunk = some r → g (gk + 1) chunk = some r2 →
      r2.shabad_id = r.shabad_id →
      process_chunk g l gk lk t chunk =
        ⟨⟨some r.shabad_id, true, 0, t.word_buffer ++ splitWords chunk⟩,
          ChunkStatus.confirmed r.shabad_id r.line r.score, gk + 2, lk⟩) ∧
    (∀ r, g gk chunk = some r →
      (g (gk + 1) chunk = none ∨
        ∃ r2, g (gk + 1) chunk = some r2 ∧ r2.shabad_id ≠ r.shabad_id) →
      process_chunk g l gk lk t chunk =
        ⟨⟨t.current_shabad_id, false, t.failure_counter,
            t.word_buffer ++ splitWords chunk⟩,
          ChunkStatus.pending_confirmation, gk + 2, lk⟩) := by
  obtain ⟨sid, conf, fc, buf⟩ := t
  simp only at hconf
  subst hconf
  refine ⟨?_, ?_, ?_⟩
  · intro h1
    simp [process_chunk, initial_confirm, h1]
  · intro r r2 h1 h2 hid
    simp [process_chunk, initial_confirm, h1, h2, hid]
  · intro r h1 h2
    rcases h2 with h2 | ⟨r2, h2, hne⟩
    · simp [process_chunk, initial_confirm, h1, h2]
    · simp [process_chunk, initial_confirm, h1, h2, hne]

/-- C2 witness: a fresh tracker whose global search always reports section
`"5"` at score 80 confirms on one chunk. -/
theorem C2_witness :
    (ShabadTracker.init.confirmed = false ∧
      gFive 0 "w" = some ⟨"5", "line5", 80⟩ ∧
      gFive 1 "w" = some ⟨"5", "line5", 80⟩) ∧
    process_chunk gFive lNone 0 0 ShabadTracker.init "w" =
      ⟨⟨some "5", true, 0, ["w"]⟩,
        ChunkStatus.confirmed "5" "line5" 80, 2, 0⟩ := by
  refine ⟨⟨rfl, rfl, rfl⟩, ?_⟩
  have h := (C2_unconfirmed_two_global_searches gFive lNone 0 0
    ShabadTracker.init "w" rfl).2.1 ⟨"5", "line5", 80⟩ ⟨"5", "line5", 80⟩
    rfl rfl rfl
  have hsw : splitWords "w" = ["w"] := by decide
  simpa [ShabadTracker.init, hsw] using h

/-- C3: a `Confirmed` tracker processing a chunk: a valid evaluation resets
the failure counter to 0, an invalid one increments it by 1, and on the
chunk where the incremented counter reaches `MAX_FAILURES` (3) the call
returns `drift_detected` with the session fully reset — anchor `None`,
unconfirmed, counter 0, empty buffer. -/
theorem C3_failure_counter_and_drift_reset (g : GlobalSearch)
    (l : LocalSearch) (gk lk : Nat) (sid : Option String) (fc : Nat)
    (buf : List String) (chunk : String) :
    (validate_progression g l gk lk
        ⟨sid, true, fc, buf ++ splitWords chunk⟩ = true →
      process_chunk g l gk lk ⟨sid, true, fc, buf⟩ chunk =
        ⟨⟨sid, true, 0, buf ++ splitWords chunk⟩,
          ChunkStatus.tracking sid,
          gk + validateCalls ⟨sid, true, fc, buf ++ splitWords chunk⟩,
          lk + validateCalls ⟨sid, true, fc, buf ++ splitWords chunk⟩⟩) ∧
    (validate_progression g l gk lk
        ⟨sid, true, fc, buf ++ splitWords chunk⟩ = false →
      fc + 1 < MAX_FAILURES →
      process_chunk g l gk lk ⟨sid, true, fc, buf⟩ chunk =
        ⟨⟨sid, true, fc + 1, buf ++ splitWords chunk⟩,
          ChunkStatus.tracking sid,
          gk + validateCalls ⟨sid, true, fc, buf ++ splitWords chunk⟩,
          lk + validateCalls ⟨sid, true, fc, buf ++ splitWords chunk⟩⟩) ∧
    (validate_progression g l gk lk
        ⟨sid, true, fc, buf ++ splitWords chunk⟩ = false →
      MAX_FAILURES ≤ fc + 1 →
      process_chunk g l gk lk ⟨sid, true, fc, buf⟩ chunk =
        ⟨⟨none, false, 0, []⟩, ChunkStatus.drift_detected,
          gk + validateCalls ⟨sid, true, fc, buf ++ splitWords chunk⟩,
          lk + validateCalls ⟨sid, true, fc, buf ++ splitWords chunk⟩⟩) := by
  refine ⟨?_, ?_, ?_⟩
  · intro hval
    simp [process_chunk, detect_drift, hval, MAX_FAILURES, reset]
  · intro hval hlt
    have hnot : ¬ (MAX_FAILURES ≤ fc + 1) := by
      simp only [MAX_FAILURES] at hlt ⊢; omega
    simp [process_chunk, detect_drift, hval, hnot]
  · intro hval hge
    simp [process_chunk, detect_drift, hval, hge, reset]

/-- C3 witness: anchor `"5"`, counter 2, eight buffered words, collaborators
that never match: the ninth-word chunk is an invalid evaluation, the
counter reaches 3, and the call drifts and fully resets. -/
theorem C3_witness :
    (validate_progression gNone lNone 0 0
        ⟨some "5", true, 2,
          ["a", "a", "a", "a", "a", "a", "a", "a"] ++ splitWords "w"⟩ =
        false ∧
      MAX_FAILURES ≤ 2 + 1) ∧
    process_chunk gNone lNone 0 0
        ⟨some "5", true, 2, ["a", "a", "a", "a", "a", "a", "a", "a"]⟩ "w" =
      ⟨⟨none, false, 0, []⟩, ChunkStatus.drift_detected, 1, 1⟩ := by
  have hval : validate_progression gNone lNone 0 0
      ⟨some "5", true, 2,
        ["a", "a", "a", "a", "a", "a", "a", "a"] ++ splitWords "w"⟩ =
      false := by
    simp [validate_progression, gNone, lNone, INTERIM_WORD_CHECK,
      LOCAL_THRESHOLD, GLOBAL_THRESHOLD, splitWords, pySplit, wordsAux]
  refine ⟨⟨hval, by simp [MAX_FAILURES]⟩, ?_⟩
  have h := (C3_failure_counter_and_drift_reset gNone lNone 0 0 (some "5") 2
    ["a", "a", "a", "a", "a", "a", "a", "a"] "w").2.2 hval
    (by simp [MAX_FAILURES])
  have hsw : splitWords "w" = ["w"] := by decide
  simpa [hsw, validateCalls, INTERIM_WORD_CHECK] using h

/-- C10: the tracker invariant "confirmed exactly when an anchor is
present" holds of a fresh tracker, is preserved by every `process_chunk`
step (any collaborators, any chunk), and holds after any `reset`. -/
theorem C10_confirmed_iff_anchor :
    ConfirmedIffAnchored ShabadTracker.init ∧
    (∀ (t : ShabadTracker), ConfirmedIffAnchored t →
      ∀ (g : GlobalSearch) (l : LocalSearch) (gk lk : Nat) (chunk : String),
        ConfirmedIffAnchored (process_chunk g l gk lk t chunk).tracker) ∧
    (∀ t : ShabadTracker, ConfirmedIffAnchored (reset t)) := by
  refine ⟨by simp [ConfirmedIffAnchored, ShabadTracker.init], ?_,
    fun t => by simp [ConfirmedIffAnchored, reset]⟩
  intro t hInv g l gk lk chunk
  obtain ⟨sid, conf, fc, buf⟩ := t
  simp only [ConfirmedIffAnchored] at hInv ⊢
  cases conf with
  | false =>
      simp only [process_chunk, initial_confirm]
      cases h1 : g gk (chunk) with
      | none => simpa using hInv
      | some r =>
          cases h2 : g (gk + 1) chunk with
          | none => simpa using hInv
          | some r2 =>
              by_cases hid : r2.shabad_id = r.shabad_id
              · simp [hid]
              · simpa [hid] using hInv
  | true =>
      simp only [process_chunk, detect_drift, reset]
      cases hval : validate_progression g l gk lk ⟨sid, true, fc, buf ++ splitWords chunk⟩ with
      | false =>
          by_cases hmax : MAX_FAILURES ≤ fc + 1
          · simp [hval, hmax]
          · simpa [hval, hmax] using hInv
      | true =>
          have hmax : ¬ (MAX_FAILURES ≤ 0) := by simp [MAX_FAILURES]
          simpa [hval, hmax] using hInv

/-- C10 witness: the invariant holds initially and after one concrete
confirming step. -/
theorem C10_witness :
    ConfirmedIffAnchored ShabadTracker.init ∧
    ConfirmedIffAnchored
      (process_chunk gFive lNone 0 0 ShabadTracker.init "w").tracker :=
  ⟨C10_confirmed_iff_anchor.1,
    C10_confirmed_iff_anchor.2.1 ShabadTracker.init
      C10_confirmed_iff_anchor.1 gFive lNone 0 0 "w"⟩

/-- With collaborators that never match, processing `n` copies of the chunk
`"w"` from an unconfirmed tracker leaves it unconfirmed and grows the word
buffer by exactly `n` words. -/
theorem runChunks_gNone_buffer (n : Nat) :
    ∀ (t : ShabadTracker) (gk lk : Nat), t.confirmed = false →
      (runChunks gNone lNone (List.replicate n "w") (t, gk, lk)).1.word_buffer.length
          = t.word_buffer.length + n ∧
        (runChunks gNone lNone (List.replicate n "w") (t, gk, lk)).1.confirmed
          = false := by
  induction n with
  | zero => intro t gk lk hconf; simp [runChunks, hconf]
  | succ n ih =>
      intro t gk lk hconf
      obtain ⟨sid, conf, fc, buf⟩ := t
      simp only at hconf
      subst hconf
      have hstep : process_chunk gNone lNone gk lk ⟨sid, false, fc, buf⟩ "w" =
          ⟨⟨sid, false, fc, buf ++ splitWords "w"⟩, ChunkStatus.no_match,
            gk + 1, lk⟩ := by
        simp [process_chunk, initial_confirm, gNone]
      have hsw : splitWords "w" = ["w"] := by decide
      rw [List.replicate_succ]
      simp only [runChunks, hstep]
      have hthis := ih ⟨sid, false, fc, buf ++ splitWords "w"⟩ (gk + 1) lk rfl
      rw [hthis.1, hthis.2]
      refine ⟨?_, rfl⟩
      simp only [hsw, List.length_append, List.length_cons, List.length_nil]
      omega

/-- C9 counterexample: no fixed bound `B` caps the tracker's word buffer
across all chunk sequences — an unconfirmed tracker whose global search
never matches accumulates every word of every chunk. -/
theorem C9_counterexample :
    ¬ ∃ B : Nat, ∀ (g : GlobalSearch) (l : LocalSearch) (chunks : List String),
        (runChunks g l chunks (ShabadTracker.init, 0, 0)).1.word_buffer.length
          ≤ B := by
  rintro ⟨B, hB⟩
  have h := hB gNone lNone (List.replicate (B + 1) "w")
  have h2 := (runChunks_gNone_buffer (B + 1) ShabadTracker.init 0 0 rfl).1
  have h3 : ShabadTracker.init.word_buffer.length = 0 := rfl
  rw [h3] at h2
  omega

/-- C9 amended: after every `process_chunk` call the word buffer is either
empty (the drift reset cleared it) or the previous buffer extended by the
chunk's words; it is an ordered sequence but not a bounded one. -/
theorem C9_amended_buffer_evolution (g : GlobalSearch) (l : LocalSearch)
    (gk lk : Nat) (t : ShabadTracker) (chunk : String) :
    (process_chunk g l gk lk t chunk).tracker.word_buffer = [] ∨
    (process_chunk g l gk lk t chunk).tracker.word_buffer =
      t.word_buffer ++ splitWords chunk := by
  obtain ⟨sid, conf, fc, buf⟩ := t
  cases conf with
  | false =>
      simp only [process_chunk, initial_confirm]
      cases h1 : g gk chunk with
      | none => simp
      | some r =>
          cases h2 : g (gk + 1) chunk with
          | none => simp
          | some r2 =>
              by_cases hid : r2.shabad_id = r.shabad_id
              · simp [hid]
              · simp [hid]
  | true =>
      simp only [process_chunk, detect_drift, reset]
      cases hval : validate_progression g l gk lk ⟨sid, true, fc, buf ++ splitWords chunk⟩ with
      | false =>
          by_cases hmax : MAX_FAILURES ≤ fc + 1
          · simp [hval, hmax]
          · simp [hval, hmax]
      | true =>
          have hmax : ¬ (MAX_FAILURES ≤ 0) := by simp [MAX_FAILURES]
          simp [hval, hmax]

end TrackerClaims

section BackendSearch

open Backend

/-- A fold of `max` never drops below its starting value. -/
theorem le_foldl_max (l : List ℚ) : ∀ b : ℚ, b ≤ l.foldl max b := by
  induction l with
  | nil => intro b; simp
  | cons x xs ih =>
      intro b
      calc b ≤ max b x := le_max_left _ _
        _ ≤ xs.foldl max (max b x) := ih _

/-- A fold of `max` dominates every list element. -/
theorem mem_le_foldl_max (l : List ℚ) :
    ∀ (b x : ℚ), x ∈ l → x ≤ l.foldl max b := by
  induction l with
  | nil => intro b x hx; cases hx
  | cons y ys ih =>
      intro b x hx
      rcases List.mem_cons.mp hx with h | h
      · subst h
        calc x ≤ max b x := le_max_right _ _
          _ ≤ ys.foldl max (max b x) := le_foldl_max _ _
      · exact ih _ x h

/-- A fold of `max` stays below any common upper bound. -/
theorem foldl_max_le (l : List ℚ) :
    ∀ (b c : ℚ), b ≤ c → (∀ x ∈ l, x ≤ c) → l.foldl max b ≤ c := by
  induction l with
  | nil => intro b c hb _; simpa using hb
  | cons y ys ih =>
      intro b c hb hmem
      simp only [List.foldl_cons]
      exact ih _ _ (max_le hb (hmem y (List.mem_cons_self y ys)))
        (fun x hx => hmem x (List.mem_cons_of_mem _ hx))

/-- The scan loop of `fuzzy_search_sggs` scores every line exactly once. -/
theorem fuzzyScan_count (ratio : Ratio) (q : String) :
    ∀ (lines : List String) (bl : Option String) (bs : ℚ),
      (fuzzyScan ratio q lines bl bs).2.2 = lines.length := by
  intro lines
  induction lines with
  | nil => intros; rfl
  | cons a rest ih =>
      intro bl bs
      simp only [fuzzyScan]
      by_cases h : bs < ratio q a
      · simp only [if_pos h, ih, List.length_cons]
      · simp only [if_neg h, ih, List.length_cons]

/-- The scan loop's final best score is the `max`-fold of all line scores
over the initial best score. -/
theorem fuzzyScan_score (ratio : Ratio) (q : String) :
    ∀ (lines : List String) (bl : Option String) (bs : ℚ),
      (fuzzyScan ratio q lines bl bs).2.1 =
        (lines.map (ratio q)).foldl max bs := by
  intro lines
  induction lines with
  | nil => intros; rfl
  | cons a rest ih =>
      intro bl bs
      simp only [fuzzyScan, List.map_cons, List.foldl_cons]
      by_cases h : bs < ratio q a
      · rw [if_pos h, ih, max_eq_right (le_of_lt h)]
      · rw [if_neg h, ih, max_eq_left (le_of_not_lt h)]

/-- The scan loop's final best line: when some line beats the initial best
score, it is the earliest line attaining the final best score (the running
best is replaced only on strictly greater scores); when no line does, the
initial best line is kept. -/
theorem fuzzyScan_line (ratio : Ratio) (q : String) :
    ∀ (lines : List String) (bl : Option String) (bs : ℚ),
      (bs < (lines.map (ratio q)).foldl max bs →
        (fuzzyScan ratio q lines bl bs).1 =
          lines.find?
            (fun l => ratio q l = (lines.map (ratio q)).foldl max bs)) ∧
      ((lines.map (ratio q)).foldl max bs ≤ bs →
        (fuzzyScan ratio q lines bl bs).1 = bl) := by
  intro lines
  induction lines with
  | nil =>
      intro bl bs
      exact ⟨fun h => absurd h (by simp), fun _ => rfl⟩
  | cons a rest ih =>
      intro bl bs
      simp only [fuzzyScan, List.map_cons, List.foldl_cons]
      by_cases h : bs < ratio q a
      · rw [if_pos h]
        simp only [max_eq_right (le_of_lt h)]
        constructor
        · intro _
          by_cases hsM : ratio q a < (rest.map (ratio q)).foldl max (ratio q a)
          · rw [(ih (some a) (ratio q a)).1 hsM,
              List.find?_cons_of_neg _ (by simpa using ne_of_lt hsM)]
          · have heq : (rest.map (ratio q)).foldl max (ratio q a) = ratio q a :=
              le_antisymm (le_of_not_lt hsM) (le_foldl_max _ _)
            rw [(ih (some a) (ratio q a)).2 (le_of_eq heq),
              List.find?_cons_of_pos _ (by simpa using heq.symm)]
        · intro hle
          have : bs < (rest.map (ratio q)).foldl max (ratio q a) :=
            lt_of_lt_of_le h (le_foldl_max _ _)
          exact absurd hle (not_le_of_lt this)
      · rw [if_neg h]
        simp only [max_eq_left (le_of_not_lt h)]
        constructor
        · intro hlt
          have hne : ¬ (ratio q a = (rest.map (ratio q)).foldl max bs) := by
            intro heq
            exact absurd (lt_of_lt_of_le hlt (le_of_eq heq.symm)) h
          rw [(ih bl bs).1 hlt, List.find?_cons_of_neg _ (by simpa using hne)]
        · exact (ih bl bs).2

/-- Any pair `fuzzy_search_sggs` returns is the scan loop's final best line
paired with its final best score. -/
theorem fuzzy_result_mem (ratio : Ratio) (loaded : Bool)
    (lines : List String) (q : String) (th : ℚ) (p : Option String × ℚ)
    (hp : p ∈ fuzzy_search_sggs ratio loaded lines q th) :
    p = ((fuzzyScan ratio q lines none (-1)).1,
      (fuzzyScan ratio q lines none (-1)).2.1) := by
  simp only [fuzzy_search_sggs] at hp
  split at hp
  · exact absurd hp (List.not_mem_nil _)
  · split at hp
    · rwa [List.mem_singleton] at hp
    · split at hp
      · rwa [List.mem_singleton] at hp
      · exact absurd hp (List.not_mem_nil _)

/-- C5: searching an unmodified corpus is deterministic (the embedding is a
pure function of the query, corpus and threshold), and any returned pair is
the earliest line attaining the best score together with that score — the
running best is replaced only on a strictly greater score, so ties go to
the earliest line in corpus iteration order. -/
theorem C5_deterministic_earliest_tiebreak (ratio : Ratio)
    (lines : List String) (q : String) (th : ℚ)
    (hge : ∀ l ∈ lines, 0 ≤ ratio q l) :
    fuzzy_search_sggs ratio true lines q th =
      fuzzy_search_sggs ratio true lines q th ∧
    ∀ p ∈ fuzzy_search_sggs ratio true lines q th,
      p.1 = lines.find?
          (fun l => ratio q l = (lines.map (ratio q)).foldl max (-1)) ∧
      p.2 = (lines.map (ratio q)).foldl max (-1) := by
  refine ⟨rfl, ?_⟩
  have key : (fuzzyScan ratio q lines none (-1)).1 =
      lines.find? (fun l => ratio q l = (lines.map (ratio q)).foldl max (-1)) ∧
      (fuzzyScan ratio q lines none (-1)).2.1 =
        (lines.map (ratio q)).foldl max (-1) := by
    cases lines with
    | nil => exact ⟨rfl, rfl⟩
    | cons a rest =>
        refine ⟨?_, fuzzyScan_score ratio q _ _ _⟩
        have hmem : ratio q a ∈ (a :: rest).map (ratio q) := by simp
        have h0 : (0 : ℚ) ≤ ratio q a := hge a (List.mem_cons_self a rest)
        have hlt : (-1 : ℚ) < ((a :: rest).map (ratio q)).foldl max (-1) :=
          lt_of_lt_of_le (by norm_num)
            (le_trans h0 (mem_le_foldl_max _ _ _ hmem))
        exact (fuzzyScan_line ratio q (a :: rest) none (-1)).1 hlt
  intro p hp
  rw [fuzzy_result_mem ratio true lines q th p hp]
  exact ⟨key.1, key.2⟩

/-- C5 witness: two lines tied at score 7 — the returned line is the
earliest (`"a"`). -/
theorem C5_witness :
    (∀ l ∈ ["a", "b"], (0 : ℚ) ≤ (fun _ _ => (7 : ℚ)) "q" l) ∧
    ∀ p ∈ fuzzy_search_sggs (fun _ _ => (7 : ℚ)) true ["a", "b"] "q" 5,
      p.1 = ["a", "b"].find?
          (fun l => (fun _ _ => (7 : ℚ)) "q" l =
            ((["a", "b"].map ((fun _ _ => (7 : ℚ)) "q")).foldl max (-1))) ∧
      p.2 = (["a", "b"].map ((fun _ _ => (7 : ℚ)) "q")).foldl max (-1) :=
  ⟨by intro l _; norm_num,
    (C5_deterministic_earliest_tiebreak (fun _ _ => (7 : ℚ)) ["a", "b"] "q" 5
      (by intro l _; norm_num)).2⟩

/-- C7: a query that strips to the empty string makes `fuzzy_search_sggs`
return the empty no-match list immediately, with zero corpus lines scored
(and, the embedding being total, without raising). -/
theorem C7_blank_query_skips_scoring (ratio : Ratio) (loaded : Bool)
    (lines : List String) (q : String) (th : ℚ) (hq : pyStrip q = "") :
    fuzzy_search_sggs ratio loaded lines q th = [] ∧
    fuzzy_search_scored ratio loaded lines q = 0 := by
  constructor
  · simp [fuzzy_search_sggs, hq]
  · simp [fuzzy_search_scored, hq]

/-- C7 witness: the all-whitespace query `" "` returns no match and scores
nothing against a loaded one-line corpus. -/
theorem C7_witness :
    pyStrip " " = "" ∧
    (fuzzy_search_sggs (fun _ _ => (0 : ℚ)) true ["x"] " " 40 = [] ∧
      fuzzy_search_scored (fun _ _ => (0 : ℚ)) true ["x"] " " = 0) :=
  ⟨by decide,
    C7_blank_query_skips_scoring (fun _ _ => (0 : ℚ)) true ["x"] " " 40
      (by decide)⟩

end BackendSearch

section SortingLemmas

/-- Everything in `insertDesc x l` is `x` or from `l`. -/
theorem mem_insertDesc {α : Type} (x y : α × ℚ) :
    ∀ l : List (α × ℚ), y ∈ insertDesc x l → y = x ∨ y ∈ l := by
  intro l
  induction l with
  | nil => intro h; simpa [insertDesc] using h
  | cons z zs ih =>
      intro h
      simp only [insertDesc] at h
      split at h
      · rcases List.mem_cons.mp h with h1 | h1
        · exact Or.inl h1
        · exact Or.inr h1
      · rcases List.mem_cons.mp h with h1 | h1
        · exact Or.inr (List.mem_cons.mpr (Or.inl h1))
        · rcases ih h1 with h2 | h2
          · exact Or.inl h2
          · exact Or.inr (List.mem_cons.mpr (Or.inr h2))

/-- Everything in the descending sort is from the original list. -/
theorem mem_sortDesc {α : Type} (y : α × ℚ) :
    ∀ l : List (α × ℚ), y ∈ sortDesc l → y ∈ l := by
  intro l
  induction l with
  | nil => intro h; simp [sortDesc] at h
  | cons z zs ih =>
      intro h
      simp only [sortDesc, List.foldr_cons] at h ih
      rcases mem_insertDesc z y _ h with h1 | h1
      · exact List.mem_cons.mpr (Or.inl h1)
      · exact List.mem_cons.mpr (Or.inr (ih h1))

/-- Everything `extract` returns is an entry of the data paired with its
score. -/
theorem extract_mem {α : Type} (scorer : String → String → ℚ) (q : String)
    (lineOf : α → String) (data : List α) (limit : Nat) (r : α × ℚ)
    (h : r ∈ Matcher.extract scorer q lineOf data limit) :
    ∃ e ∈ data, r = (e, scorer q (lineOf e)) := by
  have h1 := mem_sortDesc r _ (List.take_subset _ _ h)
  obtain ⟨e, he, heq⟩ := List.mem_map.mp h1
  exact ⟨e, he, heq.symm⟩

end SortingLemmas

section SpecEngineLemmas

open SpecEngine

/-- The weighted line score of an in-range scorer is at least 0. -/
theorem lineScore_nonneg (S : SimScorer) (h : InRange S) (q t : String) :
    0 ≤ lineScore S q t := by
  obtain ⟨⟨hr0, _⟩, ⟨hp0, _⟩, ⟨ht0, _⟩⟩ := h q t
  unfold lineScore
  positivity

/-- The weighted line score of an in-range scorer is at most 100. -/
theorem lineScore_le_100 (S : SimScorer) (h : InRange S) (q t : String) :
    lineScore S q t ≤ 100 := by
  obtain ⟨⟨_, hr1⟩, ⟨_, hp1⟩, ⟨_, ht1⟩⟩ := h q t
  unfold lineScore
  rw [div_le_iff₀ (by norm_num : (0 : ℚ) < 10)]
  linarith

/-- `better` returns either the old best or the new candidate. -/
theorem better_eq (best : Option (Nat × String × ℚ)) (c d : Nat × String × ℚ)
    (h : better best c = some d) : best = some d ∨ d = c := by
  unfold better at h
  match best with
  | none => exact Or.inr (Option.some_injective _ h).symm
  | some b =>
      simp only at h
      split at h
      · exact Or.inr (Option.some_injective _ h).symm
      · exact Or.inl h

/-- The best the scan returns is either the initial best or some scanned
candidate with its weighted score. -/
theorem scanAux_best (S : SimScorer) (q : String) :
    ∀ (cands : List (Nat × String)) (best : Option (Nat × String × ℚ))
      (c : Nat × String × ℚ),
      (scanAux S q cands best).1 = some c →
      best = some c ∨ ∃ p ∈ cands, c = (p.1, p.2, lineScore S q p.2) := by
  intro cands
  induction cands with
  | nil => intro best c h; exact Or.inl h
  | cons it rest ih =>
      obtain ⟨i, t⟩ := it
      intro best c h
      simp only [scanAux] at h
      split at h
      · simp only at h
        rcases better_eq best (i, t, lineScore S q t) c h with h1 | h1
        · exact Or.inl h1
        · exact Or.inr ⟨(i, t), List.mem_cons_self _ _, h1⟩
      · simp only at h
        rcases ih (better best (i, t, lineScore S q t)) c h with h1 | h1
        · rcases better_eq best (i, t, lineScore S q t) c h1 with h2 | h2
          · exact Or.inl h2
          · exact Or.inr ⟨(i, t), List.mem_cons_self _ _, h2⟩
        · obtain ⟨p, hp, hc⟩ := h1
          exact Or.inr ⟨p, List.mem_cons_of_mem _ hp, hc⟩

/-- Second components of `enumFrom` pairs are list elements. -/
theorem enumFrom_mem_snd {α : Type} :
    ∀ (l : List α) (n : Nat) (p : Nat × α), p ∈ List.enumFrom n l → p.2 ∈ l := by
  intro l
  induction l with
  | nil => intro n p h; cases h
  | cons a rest ih =>
      intro n p h
      rw [List.enumFrom_cons] at h
      rcases List.mem_cons.mp h with h1 | h1
      · subst h1; exact List.mem_cons_self _ _
      · exact List.mem_cons_of_mem _ (ih (n + 1) p h1)

/-- The score `bestSpan` pairs with its winner is that span's score. -/
theorem bestSpan_score (S : SimScorer) (q : String) (corpus : List String) :
    ∀ (ws : List (Nat × (Nat × Nat))) (r : (Nat × (Nat × Nat)) × ℚ),
      bestSpan S q corpus ws = some r → r.2 = spanScore S q corpus r.1.2 := by
  intro ws
  induction ws with
  | nil => intro r h; cases h
  | cons aw rest ih =>
      intro r h
      simp only [bestSpan] at h
      match hrec : bestSpan S q corpus rest with
      | none =>
          rw [hrec] at h
          simp only at h
          rw [← Option.some_injective _ h]
      | some r' =>
          rw [hrec] at h
          simp only at h
          split at h
          · rw [← Option.some_injective _ h]
          · rw [← Option.some_injective _ h]
            exact ih r' hrec

end SpecEngineLemmas

section FloorClaims

open SpecEngine

/-- C1: when every corpus line scores below both the threshold and the
decent floor (55), the spec-modelled enhanced search reports no match
(`none`) rather than returning any line; likewise the local matcher
`fuzzy_match_local_sggs` returns `None` when every entry scores below its
threshold. -/
theorem C1_below_floors_no_match :
    (∀ (S : SimScorer) (q : String) (th : ℚ) (corpus : List String),
      (∀ t ∈ corpus, lineScore S q t < th ∧ lineScore S q t < DECENT_FLOOR) →
      SpecEngine.search S q th corpus = none) ∧
    (∀ (α : Type) (scorer : String → String → ℚ) (q : String)
      (data : List α) (lineOf : α → String) (th : ℚ) (top_n : Nat),
      (∀ e ∈ data, scorer q (lineOf e) < th) →
      Matcher.fuzzy_match_local_sggs scorer q data lineOf th top_n = none) := by
  constructor
  · intro S q th corpus hbelow
    by_cases hq : pyStrip q = ""
    · simp [SpecEngine.search, hq]
    · simp only [SpecEngine.search, if_neg hq]
      cases hscan : (scanAux S q corpus.enum none).1 with
      | none => rfl
      | some c =>
          obtain ⟨i, t, sc⟩ := c
          rcases scanAux_best S q corpus.enum none (i, t, sc) hscan with h | h
          · cases h
          · obtain ⟨p, hp, hc⟩ := h
            have ht : p.2 ∈ corpus :=
              enumFrom_mem_snd corpus 0 p (by simpa [List.enum] using hp)
            have hsc2 : sc = lineScore S q p.2 :=
              congrArg (fun x => x.2.2) hc
            have hb := hbelow p.2 ht
            have hcond : sc < th ∧ sc < DECENT_FLOOR :=
              ⟨hsc2 ▸ hb.1, hsc2 ▸ hb.2⟩
            simp only [finalize, if_pos hcond]
  · intro α scorer q data lineOf th top_n hbelow
    unfold Matcher.fuzzy_match_local_sggs
    have hnone : ∀ r ∈ Matcher.extract scorer q lineOf data top_n,
        ¬ (th ≤ r.2) := by
      intro r hr
      obtain ⟨e, he, heq⟩ := extract_mem scorer q lineOf data top_n r hr
      subst heq
      exact not_le_of_lt (hbelow e he)
    rw [List.find?_eq_none.mpr (by simpa using hnone)]
    rfl

/-- C1 witness: with the constantly-zero scorer, a query against a one-line
corpus scores 0, below threshold 40 and the decent floor, so both searches
report no match. -/
theorem C1_witness :
    ((∀ t ∈ ["x"], lineScore zeroScorer "y" t < 40 ∧
        lineScore zeroScorer "y" t < DECENT_FLOOR) ∧
      (∀ e ∈ ["x"], (fun _ _ => (0 : ℚ)) "y" (id e) < 50)) ∧
    (SpecEngine.search zeroScorer "y" 40 ["x"] = none ∧
      Matcher.fuzzy_match_local_sggs (fun _ _ => (0 : ℚ)) "y" ["x"] id 50 3 =
        none) := by
  have h1 : ∀ t ∈ ["x"], lineScore zeroScorer "y" t < 40 ∧
      lineScore zeroScorer "y" t < DECENT_FLOOR := by
    intro t _
    constructor <;> norm_num [lineScore, zeroScorer, DECENT_FLOOR]
  have h2 : ∀ e ∈ ["x"], (fun _ _ => (0 : ℚ)) "y" (id e) < 50 := by
    intro e _; norm_num
  exact ⟨⟨h1, h2⟩,
    C1_below_floors_no_match.1 zeroScorer "y" 40 ["x"] h1,
    C1_below_floors_no_match.2 String (fun _ _ => (0 : ℚ)) "y" ["x"] id 50 3 h2⟩

/-- The weighted sum over present methods is at most 100 times the total
weight, given in-range scores and non-negative weights. -/
theorem weighted_sum_le (scores : String → Option ℚ)
    (hs : ∀ m s, scores m = some s → 0 ≤ s ∧ s ≤ 100) :
    ∀ weights : List (String × ℚ), (∀ mw ∈ weights, 0 ≤ mw.2) →
      (weights.filterMap
          (fun mw => (scores mw.1).map (fun s => s * mw.2))).sum ≤
        100 * (weights.map Prod.snd).sum := by
  intro weights
  induction weights with
  | nil => intro _; simp
  | cons mw rest ih =>
      intro hw
      have hwmw : 0 ≤ mw.2 := hw mw (List.mem_cons_self _ _)
      have hrest := ih (fun x hx => hw x (List.mem_cons_of_mem _ hx))
      cases hsc : scores mw.1 with
      | none =>
          simp only [List.filterMap_cons, hsc, Option.map_none',
            List.map_cons, List.sum_cons]
          linarith
      | some s =>
          have hs' := hs mw.1 s hsc
          simp only [List.filterMap_cons, hsc, Option.map_some',
            List.map_cons, List.sum_cons]
          have hmul : s * mw.2 ≤ 100 * mw.2 :=
            mul_le_mul_of_nonneg_right hs'.2 hwmw
          linarith

/-- Elements of the weighted-sum list are non-negative, given in-range
scores and non-negative weights. -/
theorem weighted_sum_nonneg (scores : String → Option ℚ)
    (hs : ∀ m s, scores m = some s → 0 ≤ s ∧ s ≤ 100)
    (weights : List (String × ℚ)) (hw : ∀ mw ∈ weights, 0 ≤ mw.2) :
    0 ≤ (weights.filterMap
        (fun mw => (scores mw.1).map (fun s => s * mw.2))).sum := by
  apply List.sum_nonneg
  intro x hx
  obtain ⟨mw, hmw, hfx⟩ := List.mem_filterMap.mp hx
  cases hsc : scores mw.1 with
  | none => rw [hsc] at hfx; cases hfx
  | some s =>
      rw [hsc] at hfx
      simp only [Option.map_some', Option.some_inj] at hfx
      subst hfx
      exact mul_nonneg (hs mw.1 s hsc).1 (hw mw hmw)

/-- C6: all scores the engine produces lie in [0,100]: the weighted
combination of `calculate_weighted_score` (which is 0 when the total weight
is 0), the best per-line score `fuzzy_search_sggs` returns, and every
spec-modelled span score — assuming the individual similarity primitives
return values in [0,100] and all weights are non-negative. -/
theorem C6_scores_within_range :
    (∀ (scores : String → Option ℚ) (weights : List (String × ℚ)),
      (∀ m s, scores m = some s → 0 ≤ s ∧ s ≤ 100) →
      (∀ mw ∈ weights, 0 ≤ mw.2) →
      (0 ≤ Tools.calculate_weighted_score scores weights ∧
        Tools.calculate_weighted_score scores weights ≤ 100) ∧
      ((weights.map Prod.snd).sum = 0 →
        Tools.calculate_weighted_score scores weights = 0)) ∧
    (∀ (ratio : Backend.Ratio) (lines : List String) (q : String) (th : ℚ),
      (∀ l ∈ lines, 0 ≤ ratio q l ∧ ratio q l ≤ 100) → lines ≠ [] →
      ∀ p ∈ Backend.fuzzy_search_sggs ratio true lines q th,
        0 ≤ p.2 ∧ p.2 ≤ 100) ∧
    (∀ S : SimScorer, InRange S →
      ∀ (q : String) (corpus : List String) (w : Nat × Nat),
        0 ≤ spanScore S q corpus w ∧ spanScore S q corpus w ≤ 100) := by
  refine ⟨?_, ?_, ?_⟩
  · intro scores weights hs hw
    by_cases htw : (weights.map Prod.snd).sum = 0
    · simp only [Tools.calculate_weighted_score, htw, if_pos rfl]
      norm_num
    · have htw0 : 0 ≤ (weights.map Prod.snd).sum := by
        apply List.sum_nonneg
        intro x hx
        obtain ⟨mw, hmw, hfx⟩ := List.mem_map.mp hx
        exact hfx ▸ hw mw hmw
      have htwpos : 0 < (weights.map Prod.snd).sum :=
        lt_of_le_of_ne htw0 (Ne.symm htw)
      refine ⟨⟨?_, ?_⟩, fun h => absurd h htw⟩
      · simp only [Tools.calculate_weighted_score, if_neg htw]
        exact div_nonneg (weighted_sum_nonneg scores hs weights hw)
          (le_of_lt htwpos)
      · simp only [Tools.calculate_weighted_score, if_neg htw]
        rw [div_le_iff₀ htwpos]
        have := weighted_sum_le scores hs weights hw
        linarith
  · intro ratio lines q th hrange hne p hp
    have hp2 : p.2 = (Backend.fuzzyScan ratio q lines none (-1)).2.1 := by
      rw [fuzzy_result_mem ratio true lines q th p hp]
    rw [hp2, fuzzyScan_score ratio q lines none (-1)]
    obtain ⟨a, rest, rfl⟩ := List.exists_cons_of_ne_nil hne
    constructor
    · have hmem : ratio q a ∈ (a :: rest).map (ratio q) := by simp
      exact le_trans (hrange a (List.mem_cons_self a rest)).1
        (mem_le_foldl_max _ _ _ hmem)
    · apply foldl_max_le
      · norm_num
      · intro x hx
        obtain ⟨l, hl, hfx⟩ := List.mem_map.mp hx
        exact hfx ▸ (hrange l hl).2
  · intro S hS q corpus w
    exact ⟨lineScore_nonneg S hS q (spanText corpus w),
      lineScore_le_100 S hS q (spanText corpus w)⟩

/-- C6 witness: concrete in-range scores and weights — the weighted
combination of score 50 at weights 1 and 1 (one method absent) is 25; a
one-line corpus at ratio 7 returns score 7; a concrete span scores 0. -/
theorem C6_witness :
    ((∀ m s, (fun m => if m = "ratio" then some (50 : ℚ) else none) m =
          some s → 0 ≤ s ∧ s ≤ 100) ∧
      (∀ mw ∈ [("ratio", (1 : ℚ)), ("wratio", (1 : ℚ))], 0 ≤ mw.2) ∧
      (∀ l ∈ ["a"], 0 ≤ (fun _ _ => (7 : ℚ)) "q" l ∧
        (fun _ _ => (7 : ℚ)) "q" l ≤ 100) ∧
      InRange zeroScorer) ∧
    ((0 ≤ Tools.calculate_weighted_score
          (fun m => if m = "ratio" then some (50 : ℚ) else none)
          [("ratio", 1), ("wratio", 1)] ∧
        Tools.calculate_weighted_score
          (fun m => if m = "ratio" then some (50 : ℚ) else none)
          [("ratio", 1), ("wratio", 1)] ≤ 100) ∧
      (∀ p ∈ Backend.fuzzy_search_sggs (fun _ _ => (7 : ℚ)) true ["a"] "q" 5,
        0 ≤ p.2 ∧ p.2 ≤ 100) ∧
      (0 ≤ spanScore zeroScorer "q" ["a", "b"] (0, 1) ∧
        spanScore zeroScorer "q" ["a", "b"] (0, 1) ≤ 100)) := by
  have hs : ∀ m s, (fun m => if m = "ratio" then some (50 : ℚ) else none) m =
      some s → 0 ≤ s ∧ s ≤ 100 := by
    intro m s h
    simp only at h
    split at h
    · obtain rfl := Option.some_inj.mp h
      norm_num
    · cases h
  have hw : ∀ mw ∈ [("ratio", (1 : ℚ)), ("wratio", (1 : ℚ))], 0 ≤ mw.2 := by
    intro mw hmw
    rcases List.mem_cons.mp hmw with h | h
    · rw [h]; norm_num
    · rcases List.mem_cons.mp h with h | h
      · rw [h]; norm_num
      · cases h
  have hr : ∀ l ∈ ["a"], 0 ≤ (fun _ _ => (7 : ℚ)) "q" l ∧
      (fun _ _ => (7 : ℚ)) "q" l ≤ 100 := by
    intro l _; norm_num
  have hz : InRange zeroScorer := by
    intro x y
    refine ⟨⟨?_, ?_⟩, ⟨?_, ?_⟩, ?_, ?_⟩ <;> simp [zeroScorer]
  exact ⟨⟨hs, hw, hr, hz⟩,
    (C6_scores_within_range.1
      (fun m => if m = "ratio" then some (50 : ℚ) else none)
      [("ratio", 1), ("wratio", 1)] hs hw).1,
    C6_scores_within_range.2.1 (fun _ _ => (7 : ℚ)) ["a"] "q" 5 hr
      (by simp),
    C6_scores_within_range.2.2 zeroScorer hz "q" ["a", "b"] (0, 1)⟩

end FloorClaims

section EarlyExitClaims

open SpecEngine

/-- `nearScorer` is within [0,100]. -/
theorem nearScorer_inRange : InRange nearScorer := by
  intro x y
  refine ⟨⟨?_, ?_⟩, ⟨?_, ?_⟩, ?_, ?_⟩ <;>
    · simp only [nearScorer]
      split <;> norm_num

/-- `nearScorer` scores a string against itself at 100. -/
theorem nearScorer_refl : Reflexive100 nearScorer := by
  intro x
  refine ⟨?_, ?_, ?_⟩ <;> simp [nearScorer]

/-- `nearScorer` is symmetric. -/
theorem nearScorer_symm : SymmetricScorer nearScorer := by
  intro x y
  by_cases h : x = y
  · subst h; exact ⟨rfl, rfl⟩
  · have h' : ¬ (y = x) := fun e => h e.symm
    constructor <;> simp [nearScorer, h, h']

/-- With an in-range scorer, a best candidate at score 100 passes
acceptance (100 is not below the decent floor) and no span can strictly
beat it, so `finalize` returns it unchanged. -/
theorem finalize_at_100 (S : SimScorer) (hrange : InRange S) (q : String)
    (th : ℚ) (corpus : List String) (scored : List (Nat × ℚ)) (i : Nat)
    (t : String) :
    finalize S q th corpus scored (some (i, t, 100)) = some ⟨t, i, 100⟩ := by
  have hnot : ¬ ((100 : ℚ) < th ∧ (100 : ℚ) < DECENT_FLOOR) := by
    intro h
    exact absurd h.2 (by norm_num [DECENT_FLOOR])
  simp only [finalize, if_neg hnot]
  cases hbs : bestSpan S q corpus
      (spanCandidates corpus.length
        (((sortDesc scored).take 3).map Prod.fst)) with
  | none => rfl
  | some r =>
      obtain ⟨aw, ssc⟩ := r
      have hssc := bestSpan_score S q corpus _ (aw, ssc) hbs
      simp only at hssc
      have hle : ¬ ((100 : ℚ) < ssc) := by
        rw [hssc]
        exact not_lt_of_le (lineScore_le_100 S hrange q _)
      simp [hle]

/-- Scanning candidates whose prefix all score below the early-exit bound,
with the query's own line next (scoring 100): the scan stops right there,
having examined exactly the prefix plus that line, and returns it as
best. -/
theorem scanAux_early_exit (S : SimScorer) (q : String) (post : List String)
    (h100 : lineScore S q q = 100) :
    ∀ (pre : List String) (n : Nat) (best : Option (Nat × String × ℚ)),
      (∀ t ∈ pre, lineScore S q t < 95) →
      (∀ c, best = some c → c.2.2 < 95) →
      (scanAux S q (List.enumFrom n (pre ++ q :: post)) best).1 =
          some (n + pre.length, q, 100) ∧
        (scanAux S q (List.enumFrom n (pre ++ q :: post)) best).2.2 =
          pre.length + 1 := by
  intro pre
  induction pre with
  | nil =>
      intro n best _ hbest
      simp only [List.nil_append, List.enumFrom_cons, scanAux, h100]
      rw [if_pos (by norm_num [EARLY_EXIT] : EARLY_EXIT ≤ (100 : ℚ))]
      refine ⟨?_, rfl⟩
      show better best (n, q, 100) = some (n + List.length [], q, 100)
      cases best with
      | none => simp [better]
      | some c =>
          have hc := hbest c rfl
          simp only [better]
          rw [if_pos (lt_trans hc (by norm_num))]
          simp
  | cons a pre' ih =>
      intro n best hpre hbest
      have ha : lineScore S q a < 95 := hpre a (List.mem_cons_self _ _)
      have hnotexit : ¬ (EARLY_EXIT ≤ lineScore S q a) := by
        simp only [EARLY_EXIT]
        exact not_le.mpr ha
      simp only [List.cons_append, List.enumFrom_cons, scanAux]
      rw [if_neg hnotexit]
      have hbest' : ∀ c, better best (n, a, lineScore S q a) = some c →
          c.2.2 < 95 := by
        intro c hc
        rcases better_eq best (n, a, lineScore S q a) c hc with h1 | h1
        · exact hbest c h1
        · rw [h1]; exact ha
      have hih := ih (n + 1) (better best (n, a, lineScore S q a))
        (fun t ht => hpre t (List.mem_cons_of_mem _ ht)) hbest'
      constructor
      · show (scanAux S q (List.enumFrom (n + 1) (pre' ++ q :: post))
            (better best (n, a, lineScore S q a))).1 = _
        rw [hih.1]
        have hn : n + 1 + pre'.length = n + (a :: pre').length := by
          simp only [List.length_cons]
          omega
        rw [hn]
      · show (scanAux S q (List.enumFrom (n + 1) (pre' ++ q :: post))
            (better best (n, a, lineScore S q a))).2.2 + 1 = _
        rw [hih.2]
        simp only [List.length_cons]

/-- C4 amended: with an in-range scorer that scores exact matches at 100,
searching for a non-blank corpus line `L` before whose first occurrence no
line reaches the early-exit bound returns `L` itself with score 100, and
the scan examines exactly the lines up to and including `L` — it stops
scanning the remaining candidates.  (As stated, the claim fails when an
earlier line reaches the bound: see the counterexample.) -/
theorem C4_self_query_early_exit (S : SimScorer) (th : ℚ)
    (pre post : List String) (L : String) (hrange : InRange S)
    (hrefl : Reflexive100 S) (hL : pyStrip L ≠ "")
    (hpre : ∀ t ∈ pre, lineScore S L t < 95) :
    SpecEngine.search S L th (pre ++ L :: post) =
        some ⟨L, pre.length, 100⟩ ∧
      (scanAux S L ((pre ++ L :: post).enum) none).2.2 = pre.length + 1 := by
  have h100 : lineScore S L L = 100 := by
    obtain ⟨h1, h2, h3⟩ := hrefl L
    unfold lineScore
    rw [h1, h2, h3]
    norm_num
  have hscan := scanAux_early_exit S L post h100 pre 0 none hpre
    (fun c hc => by cases hc)
  have henum : (pre ++ L :: post).enum =
      List.enumFrom 0 (pre ++ L :: post) := rfl
  constructor
  · simp only [SpecEngine.search, if_neg hL]
    rw [henum, hscan.1]
    simp only [Nat.zero_add]
    exact finalize_at_100 S hrange L th (pre ++ L :: post) _ pre.length L
  · rw [henum]
    exact hscan.2

/-- C4 witness: a one-line corpus containing only `"bb"` — searching for
`"bb"` returns it at score 100 having examined exactly one candidate. -/
theorem C4_witness :
    (InRange nearScorer ∧ Reflexive100 nearScorer ∧
      pyStrip "bb" ≠ "" ∧
      (∀ t ∈ ([] : List String), lineScore nearScorer "bb" t < 95)) ∧
    (SpecEngine.search nearScorer "bb" 40 ["bb"] = some ⟨"bb", 0, 100⟩ ∧
      (scanAux nearScorer "bb" ((["bb"] : List String).enum) none).2.2 = 1) := by
  have h := C4_self_query_early_exit nearScorer 40 [] [] "bb"
    nearScorer_inRange nearScorer_refl (by decide) (by simp)
  exact ⟨⟨nearScorer_inRange, nearScorer_refl, by decide, by simp⟩,
    by simpa using h.1, by simpa using h.2⟩

/-- C4 counterexample: the claim as stated — that searching for any corpus
line `L` returns `L` itself — fails for scorers meeting every stated
contract: an earlier line can reach the early-exit bound, and the search
then stops and returns that line instead of `L`. -/
theorem C4_counterexample :
    ¬ (∀ S : SimScorer, InRange S → Reflexive100 S → SymmetricScorer S →
        ∀ (corpus : List String) (L : String), L ∈ corpus →
          pyStrip L ≠ "" → ∀ th : ℚ,
            ∃ r, SpecEngine.search S L th corpus = some r ∧
              r.text = L ∧ 95 ≤ r.score) := by
  intro hclaim
  obtain ⟨r, hr, htext, -⟩ := hclaim nearScorer nearScorer_inRange
    nearScorer_refl nearScorer_symm ["aa", "bb"] "bb" (by simp)
    (by decide) 40
  have hAA : lineScore nearScorer "bb" "aa" = 95 := by
    norm_num [lineScore, nearScorer, show ¬ ("bb" = "aa") from by decide]
  have hAB : lineScore nearScorer "bb" "aa bb" = 95 := by
    norm_num [lineScore, nearScorer, show ¬ ("bb" = "aa bb") from by decide]
  have henum : (["aa", "bb"] : List String).enum = [(0, "aa"), (1, "bb")] :=
    by decide
  have hscan : scanAux nearScorer "bb" [(0, "aa"), (1, "bb")] none =
      (some (0, "aa", 95), [(0, 95)], 1) := by
    simp only [scanAux, hAA, better]
    rw [if_pos (by norm_num [EARLY_EXIT] : EARLY_EXIT ≤ (95 : ℚ))]
  have hT0 : spanText ["aa", "bb"] (0, 0) = "aa" := by decide
  have hT1 : spanText ["aa", "bb"] (0, 1) = "aa bb" := by decide
  have hS0 : spanScore nearScorer "bb" ["aa", "bb"] (0, 0) = 95 := by
    unfold spanScore
    rw [hT0]
    exact hAA
  have hS1 : spanScore nearScorer "bb" ["aa", "bb"] (0, 1) = 95 := by
    unfold spanScore
    rw [hT1]
    exact hAB
  have hD : spanCandidates 2 [0] = [(0, (0, 0)), (0, (0, 1))] := by decide
  have hbs : bestSpan nearScorer "bb" ["aa", "bb"]
      [(0, (0, 0)), (0, (0, 1))] = some ((0, (0, 1)), 95) := by
    simp only [bestSpan, hS0, hS1]
    rw [if_neg (by norm_num : ¬ (95 : ℚ) < 95)]
  have hcomp : SpecEngine.search nearScorer "bb" 40 ["aa", "bb"] =
      some ⟨"aa", 0, 95⟩ := by
    simp only [SpecEngine.search]
    rw [if_neg (by decide : ¬ pyStrip "bb" = "")]
    rw [henum, hscan]
    simp only [finalize]
    rw [if_neg (by norm_num [DECENT_FLOOR] :
      ¬ ((95 : ℚ) < 40 ∧ (95 : ℚ) < DECENT_FLOOR))]
    simp only [sortDesc, List.foldr, insertDesc, List.take, List.map,
      List.length_cons, List.length_nil]
    rw [hD, hbs]
    simp [show ¬ (95 : ℚ) < 95 from by norm_num]
  rw [hcomp] at hr
  obtain rfl := Option.some_inj.mp hr.symm
  exact absurd htext (by decide)

end EarlyExitClaims

section IndexClaims

/-- Folding index-update steps that each either keep the index or add the
fixed line number `k`: any posting of the result was already present or
is `k`. -/
theorem foldl_step_mem {γ : Type}
    (g : (String → Finset Nat) → γ → (String → Finset Nat)) (k : Nat)
    (hg : ∀ idx x t n, n ∈ g idx x t → n ∈ idx t ∨ n = k) :
    ∀ (l : List γ) (idx : String → Finset Nat) (t : String) (n : Nat),
      n ∈ (l.foldl g idx) t → n ∈ idx t ∨ n = k := by
  intro l
  induction l with
  | nil => intro idx t n h; exact Or.inl h
  | cons x xs ih =>
      intro idx t n h
      rcases ih (g idx x) t n h with h1 | h1
      · exact hg idx x t n h1
      · exact Or.inr h1

/-- The token-insertion step of `build_inverted_index` adds only the
current line number `k`. -/
theorem build_step_mem (k : Nat) :
    ∀ (idx : String → Finset Nat) (tok : String) (t : String) (n : Nat),
      n ∈ (fun s => if s = tok then insert k (idx s) else idx s) t →
      n ∈ idx t ∨ n = k := by
  intro idx tok t n h
  simp only at h
  split at h
  · rcases Finset.mem_insert.mp h with h1 | h1
    · exact Or.inr h1
    · exact Or.inl h1
  · exact Or.inl h

/-- `buildAux` invariant: every line number posted in the index has an
entry in the line map. -/
theorem buildAux_inv (wordChar : Char → Bool) :
    ∀ (file : List String) (k : Nat) (idx : String → Finset Nat)
      (lm : Nat → Option String),
      (∀ t n, n ∈ idx t → (lm n).isSome) →
      ∀ t n, n ∈ (BuildIndex.buildAux wordChar file k idx lm).1 t →
        ((BuildIndex.buildAux wordChar file k idx lm).2 n).isSome := by
  intro file
  induction file with
  | nil => intro k idx lm hinv t n h; exact hinv t n h
  | cons line rest ih =>
      intro k idx lm hinv t n h
      simp only [BuildIndex.buildAux] at h ⊢
      refine ih (k + 1) _ _ ?_ t n h
      intro t' n' h'
      rcases foldl_step_mem _ k (build_step_mem k) _ idx t' n' h' with h1 | h1
      · by_cases hk : n' = k
        · simp [hk]
        · simpa [hk] using hinv t' n' h1
      · simp [h1]

/-- The token-insertion step of `create_inverted_index` adds only the
current line number `k`. -/
theorem create_step_mem (k : Nat) :
    ∀ (idx : String → Finset Nat) (tok : String) (t : String) (n : Nat),
      n ∈ ((fun acc tok =>
          let cleaned := pyStrip tok
          if CreateIndex.ignore_chars.contains cleaned then acc
          else if cleaned = "" then acc
          else fun s => if s = cleaned then insert k (acc s) else acc s)
            idx tok) t →
      n ∈ idx t ∨ n = k := by
  intro idx tok t n h
  simp only at h
  split at h
  · exact Or.inl h
  · split at h
    · exact Or.inl h
    · simp only at h
      split at h
      · rcases Finset.mem_insert.mp h with h1 | h1
        · exact Or.inr h1
        · exact Or.inl h1
      · exact Or.inl h

/-- `createAux` invariant: starting the numbering at `k ≥ 1` over an index
whose postings are all `≥ 1` keeps every posting `≥ 1`. -/
theorem createAux_ge_one :
    ∀ (file : List String) (k : Nat) (idx : String → Finset Nat),
      1 ≤ k → (∀ t n, n ∈ idx t → 1 ≤ n) →
      ∀ t n, n ∈ CreateIndex.createAux file k idx t → 1 ≤ n := by
  intro file
  induction file with
  | nil => intro k idx _ hinv t n h; exact hinv t n h
  | cons line rest ih =>
      intro k idx hk hinv t n h
      simp only [CreateIndex.createAux] at h
      by_cases hblank : pyStrip line = ""
      · rw [if_pos hblank] at h
        exact ih (k + 1) idx (by omega) hinv t n h
      · rw [if_neg hblank] at h
        refine ih (k + 1) _ (by omega) ?_ t n h
        intro t' n' h'
        rcases foldl_step_mem _ k (create_step_mem k) _ idx t' n' h' with h1 | h1
        · exact hinv t' n' h1
        · omega

/-- C8 counterexample: `build_inverted_index` numbers lines with
`enumerate(file)`, starting at 0 — the very first line's tokens are posted
under line id 0, which is not `≥ 1`. -/
theorem C8_counterexample :
    ¬ (∀ (wordChar : Char → Bool) (file : List String) (token : String)
        (n : Nat),
        n ∈ (BuildIndex.build_inverted_index wordChar file).1 token →
          1 ≤ n) := by
  intro h
  have h0 : 0 ∈ (BuildIndex.build_inverted_index
      (fun c => c.isAlphanum) ["ab"]).1 "ab" := by decide
  exact absurd (h (fun c => c.isAlphanum) ["ab"] "ab" 0 h0) (by norm_num)

/-- C8 amended: every line id in any posting set of
`build_inverted_index` refers to an entry of the line map built from the
same file (the ids are 0-based, not `≥ 1`); the SGGSUtilities
`create_inverted_index` (which returns no line map) numbers its postings
from 1, so there every posted id is `≥ 1`. -/
theorem C8_posted_ids_valid :
    (∀ (wordChar : Char → Bool) (file : List String) (token : String)
      (n : Nat),
      n ∈ (BuildIndex.build_inverted_index wordChar file).1 token →
        ((BuildIndex.build_inverted_index wordChar file).2 n).isSome) ∧
    (∀ (file : List String) (token : String) (n : Nat),
      n ∈ CreateIndex.create_inverted_index file token → 1 ≤ n) := by
  constructor
  · intro wordChar file token n h
    exact buildAux_inv wordChar file 0 (fun _ => ∅) (fun _ => none)
      (fun t n hn => absurd hn (Finset.not_mem_empty n)) token n h
  · intro file token n h
    exact createAux_ge_one file 1 (fun _ => ∅) (by omega)
      (fun t n hn => absurd hn (Finset.not_mem_empty n)) token n h

/-- C8 witness: on the one-line file `["ab"]`, the backend index posts
`"ab"` under id 0 and that id is in the line map; the SGGSUtilities index
posts `"ab"` under id 1, which is `≥ 1`. -/
theorem C8_witness :
    (0 ∈ (BuildIndex.build_inverted_index (fun c => c.isAlphanum) ["ab"]).1
        "ab" ∧
      1 ∈ CreateIndex.create_inverted_index ["ab"] "ab") ∧
    (((BuildIndex.build_inverted_index (fun c => c.isAlphanum) ["ab"]).2
        0).isSome ∧
      1 ≤ 1) := by
  have h0 : 0 ∈ (BuildIndex.build_inverted_index
      (fun c => c.isAlphanum) ["ab"]).1 "ab" := by decide
  have h1 : 1 ∈ CreateIndex.create_inverted_index ["ab"] "ab" := by decide
  exact ⟨⟨h0, h1⟩,
    C8_posted_ids_valid.1 (fun c => c.isAlphanum) ["ab"] "ab" 0 h0,
    C8_posted_ids_valid.2 ["ab"] "ab" 1 h1⟩

end IndexClaims

end BaniAI
